import Mathlib

/-!
Verification development for the two utility scripts of this repository:
`data/tree.py` (directory-tree-to-text reporter) and `update_imports.py`
(pattern-based import rewriter).  The Python functions are shallowly embedded
as executable Lean definitions; the filesystem is modelled as an explicit
tree value passed to the embedded functions, so that the functions are pure
computations over the observed snapshot, exactly as the scripts compute over
the snapshot the OS shows them.
-/

/-- The path separator `os.sep`; the scripts are modelled on a POSIX system. -/
def sep : String := "/"

/-- A snapshot of a directory subtree: the directory's base name, its
subdirectories in the order the OS enumerates them, and its files in the order
the OS enumerates them. -/
inductive DirTree where
  | node (name : String) (dirs : List DirTree) (files : List String)

/-- Base name of the directory at the root of the subtree. -/
def DirTree.name : DirTree → String
  | .node n _ _ => n

/-- Subdirectories, in OS enumeration order. -/
def DirTree.dirs : DirTree → List DirTree
  | .node _ ds _ => ds

/-- Files directly inside the directory, in OS enumeration order. -/
def DirTree.files : DirTree → List String
  | .node _ _ fs => fs

/-- One `(root, dirs, files)` item yielded by `os.walk`, together with the
values derived from it in the body of the loop: `root` is the full path
`os.walk` yields, `rel` is `os.path.relpath(root, start_path)`, `base` is
`os.path.basename(root)`, and `files` is the file-name list. -/
structure WalkEntry where
  root : String
  rel : String
  base : String
  files : List String
deriving DecidableEq

/-- `os.path.relpath(os.path.join(full, name), start_path)` when
`os.path.relpath(full, start_path) = rel`: the root itself is `"."`, its
children drop the `"."` component. -/
def joinRel (rel name : String) : String :=
  if rel = "." then name else rel ++ sep ++ name

mutual
/-- The sequence of `(root, dirs, files)` items `os.walk(start_path)` yields
for the subtree `t` whose full path is `full` and whose path relative to the
traversal root is `rel`: top-down, each directory before its subdirectories,
subdirectories in OS enumeration order. -/
def walkAux : DirTree → String → String → List WalkEntry
  | .node name dirs files, full, rel =>
    ⟨full, rel, name, files⟩ :: walkList dirs full rel

/-- `os.walk` items contributed by a list of subdirectories of the directory
at path `full` (relative path `rel`), in order. -/
def walkList : List DirTree → String → String → List WalkEntry
  | [], _, _ => []
  | d :: ds, full, rel =>
    walkAux d (full ++ sep ++ d.name) (joinRel rel d.name) ++ walkList ds full rel
end

/-- `relative_root.count(os.sep)`: the number of path-separator characters in
a (relative) path string. -/
def countSep (s : String) : Nat :=
  (s.data.filter (fun c => c = '/')).length

/-- The 4-character indent glyph `'│   '`. -/
def indentGlyph : String := "│   "

/-- `'│   ' * n`: the indent glyph repeated `n` times. -/
def glyphs (n : Nat) : String :=
  String.join (List.replicate n indentGlyph)

/-- The lines the body of the `os.walk` loop appends for one yielded item:
the directory's own line (the fixed `.` + separator marker for the root,
otherwise `indent_level` indent glyphs, the branch glyph, the base name and a
trailing separator), followed by one line per file with `indent_level + 1`
indent glyphs. -/
def entryLines (e : WalkEntry) : List String :=
  let dirLine :=
    if e.rel = "." then s!".{sep}"
    else glyphs (countSep e.rel) ++ s!"├── {e.base}{sep}"
  let fileLines := e.files.map fun file_name =>
    glyphs (countSep e.rel + 1) ++ s!"├── {file_name}"
  dirLine :: fileLines

/-- The full paths the body of the `os.walk` loop appends to `found_files`
for one yielded item: `os.path.join(root, file_name)` for each file. -/
def entryFiles (e : WalkEntry) : List String :=
  e.files.map fun file_name => e.root ++ sep ++ file_name

/-- The `found_files` list accumulated over the whole walk. -/
def foundFilesOf (t : DirTree) (start_path : String) : List String :=
  ((walkAux t start_path ".").map entryFiles).flatten

/-- The `output_lines` list of `generate_directory_tree_text` just before the
final join: header, the lines of every walk item in walk order, then either
the summary block (separator header, every collected path, the total-count
line) when files were found, or the single explanatory line when none were.
`abspath` is `os.path.abspath(start_path)`. -/
def generate_output_lines (start_path abspath : String) (t : DirTree) :
    List String :=
  let output_lines := [s!"Scanning directory tree from: {abspath}\n"] ++
    ((walkAux t start_path ".").map entryLines).flatten
  let found_files := foundFilesOf t start_path
  if found_files ≠ [] then
    output_lines ++ ["\n--- Summary: All Files Found (Full Paths) ---"] ++
      found_files ++ [s!"\nTotal files found: {found_files.length}"]
  else
    output_lines ++ ["No files found or an error occurred during scanning."]

/-- `generate_directory_tree_text(start_path)`.  The filesystem is passed
explicitly: `fs = none` models `os.path.exists(start_path)` being false, and
`fs = some t` models an existing root whose observed subtree snapshot is `t`;
`abspath` is the value of `os.path.abspath(start_path)`.  Returns the joined
report text and the collected file list. -/
def generate_directory_tree_text (start_path abspath : String)
    (fs : Option DirTree) : String × List String :=
  match fs with
  | none => (s!"Error: The specified path does not exist: '{start_path}'\n", [])
  | some t =>
    (String.intercalate "\n" (generate_output_lines start_path abspath t),
      foundFilesOf t start_path)

/-- The nested example `root/sub/deep/file.txt` from the spec's testable
properties. -/
def exTree : DirTree :=
  .node "root" [.node "sub" [.node "deep" [] ["file.txt"]] []] []

mutual
/-- The file paths of the subtree `t` (full path `full`) in visitation order:
the directory's own files first (each joined to the directory's path), then
the files of each subdirectory's subtree, subdirectories in order. -/
def collectFiles : DirTree → String → List String
  | .node _ dirs files, full =>
    files.map (fun fn => full ++ sep ++ fn) ++ collectFilesList dirs full

/-- Visitation-order file paths contributed by a list of subdirectories of
the directory at path `full`. -/
def collectFilesList : List DirTree → String → List String
  | [], _ => []
  | d :: ds, full =>
    collectFiles d (full ++ sep ++ d.name) ++ collectFilesList ds full
end

/-- `p` is a prefix of `s`: the pattern matches at the current position. -/
def Starts (p s : List Char) : Prop := ∃ t, s = p ++ t

instance startsDecidable (p s : List Char) : Decidable (Starts p s) :=
  decidable_of_iff (s.take p.length = p) (by
    constructor
    · intro h
      refine ⟨s.drop p.length, ?_⟩
      conv_lhs => rw [← List.take_append_drop p.length s]
      rw [h]
    · rintro ⟨t, rfl⟩
      exact List.take_left p t)

/-- `p` occurs as a contiguous substring of `s`: the pattern matches at some
position. -/
def Within (p s : List Char) : Prop := ∃ u v, s = u ++ p ++ v

instance withinDecidable (p s : List Char) : Decidable (Within p s) :=
  decidable_of_iff
    (((List.range (s.length + 1)).any fun j => decide (Starts p (s.drop j)))
      = true) (by
    simp only [List.any_eq_true, decide_eq_true_eq]
    constructor
    · rintro ⟨j, _, t, ht⟩
      refine ⟨s.take j, t, ?_⟩
      conv_lhs => rw [← List.take_append_drop j s]
      rw [ht, List.append_assoc]
    · rintro ⟨u, v, rfl⟩
      refine ⟨u.length, ?_, v, ?_⟩
      · simp [List.mem_range]
        omega
      · rw [List.append_assoc, List.drop_left])

/-- `re.sub(pat, rep, s)` for a pattern that is a regex-escaped literal
string, as both entries of `PATTERNS` are: scan left to right; where the
pattern matches, emit the replacement and resume after the matched text;
elsewhere keep the character.  (The `pat ≠ []` guard only rules out the empty
pattern, which `PATTERNS` does not contain.) -/
def reSub (pat rep : List Char) : List Char → List Char
  | [] => []
  | c :: rest =>
    if pat ≠ [] ∧ Starts pat (c :: rest) then
      rep ++ reSub pat rep (rest.drop (pat.length - 1))
    else c :: reSub pat rep rest
termination_by s => s.length
decreasing_by
  · simp only [List.length_cons, List.length_drop]
    omega
  · simp

/-- The characters the first `PATTERNS` key `r"from '@\/"` matches. -/
def fromPat : List Char := "from '@/".data

/-- The replacement for the first `PATTERNS` key. -/
def fromRep : List Char := "from '#@/".data

/-- The characters the second `PATTERNS` key `r"require\('@\/"` matches. -/
def reqPat : List Char := "require('@/".data

/-- The replacement for the second `PATTERNS` key. -/
def reqRep : List Char := "require('#@/".data

/-- The `for old_path, new_path in PATTERNS.items()` loop of
`update_imports`: apply each replacement with `re.sub`, in the dictionary's
insertion order (the `from` pattern, then the `require` pattern). -/
def applyPatterns (content : String) : String :=
  String.mk (reSub reqPat reqRep (reSub fromPat fromRep content.data))

/-- One file as `main`'s walk of `ROOT_DIR` encounters it: its path
(`os.path.join(root, file)`), its bare name, and its stored content, where
`none` models a file whose processing raises an exception (e.g. the read
fails). -/
structure SrcFile where
  path : String
  name : String
  content : Option String
deriving DecidableEq

/-- The body of `update_imports(file_path)` without its `try/except`:
reading a file with no readable content raises; otherwise the `PATTERNS`
loop runs and the file is written back exactly when the rewritten content
differs.  Returns the file's new state and whether it was written. -/
def update_imports_raw (f : SrcFile) : Except String (SrcFile × Bool) :=
  match f.content with
  | none => .error f.path
  | some content =>
    let new_content := applyPatterns content
    if new_content ≠ content then
      .ok ({ f with content := some new_content }, true)
    else
      .ok (f, false)

/-- `update_imports(file_path)`: the `try/except` catches any error, reports
it for that file, and leaves the file as it was. -/
def update_imports (f : SrcFile) : SrcFile × Bool :=
  match update_imports_raw f with
  | .error _ => (f, false)
  | .ok r => r

/-- `main()`'s batch over the files `os.walk(ROOT_DIR)` yields, in walk
order: every file whose name ends with `'.js'` is passed to
`update_imports`; every other file is left untouched.  (Lean reserves the
name `main` for an entry point, so the function is named after its file.) -/
def update_imports_main (files : List SrcFile) : List SrcFile :=
  files.map fun f =>
    if f.name.endsWith ".js" then (update_imports f).1 else f

mutual
/-- The file paths accumulated along a walk of `t` are exactly the
visitation-order file paths of `t`. -/
theorem walkAux_files (t : DirTree) (full rel : String) :
    ((walkAux t full rel).map entryFiles).flatten = collectFiles t full := by
  cases t with
  | node name dirs files =>
    simp [walkAux, collectFiles, entryFiles, walkList_files dirs full rel]

/-- List version of `walkAux_files`. -/
theorem walkList_files (ds : List DirTree) (full rel : String) :
    ((walkList ds full rel).map entryFiles).flatten =
      collectFilesList ds full := by
  cases ds with
  | nil => simp [walkList, collectFilesList]
  | cons d ds =>
    simp [walkList, collectFilesList, walkAux_files d, walkList_files ds full rel]
end

/-- Each walk item appends one directory line and one line per file, so the
file-entry lines it appends number `(entryLines e).length - 1`, which is the
number of paths it appends to `found_files`. -/
theorem entryFiles_length_eq (l : List WalkEntry) :
    (l.map (List.length ∘ entryFiles)).sum =
      (l.map (fun e => (entryLines e).length - 1)).sum := by
  induction l with
  | nil => simp
  | cons e l ih => simp [entryFiles, entryLines, ih]


/-- C2: a nonexistent root yields the error-sentinel string containing the
literal root string, with an empty file list, returned normally. -/
theorem nonexistent_root_sentinel (start_path abspath : String) :
    generate_directory_tree_text start_path abspath none =
      ("Error: The specified path does not exist: '" ++ start_path ++ "'\n",
        []) := rfl

/-- C1 (counterexample): in the nested example, the rendered line for
`file.txt` carries 2 indent-glyph repetitions, and no 3-glyph line for
`file.txt` appears anywhere in the report, refuting the claimed count of 3. -/
theorem file_depth_three_refuted :
    glyphs 2 ++ "├── file.txt" ∈ generate_output_lines "root" "/abs/root" exTree
      ∧ glyphs 3 ++ "├── file.txt" ∉
        generate_output_lines "root" "/abs/root" exTree := by
  constructor <;> decide

/-- C1 (amended): a non-root directory's line carries `countSep rel` indent
glyphs (0 for immediate children, 1 for grandchildren), a file's line one
more; hence in the nested example the `file.txt` line carries exactly 2
glyphs, and `root/sub/deep/file.txt` is in the file list. -/
theorem dir_depth_is_sep_count :
    (∀ e : WalkEntry, e.rel ≠ "." →
      (entryLines e).head? = some (glyphs (countSep e.rel) ++ s!"├── {e.base}{sep}"))
    ∧ (∀ (e : WalkEntry) (fn : String), fn ∈ e.files →
      glyphs (countSep e.rel + 1) ++ s!"├── {fn}" ∈ entryLines e)
    ∧ countSep "sub" = 0 ∧ countSep "sub/deep" = 1
    ∧ glyphs 2 ++ "├── file.txt" ∈ generate_output_lines "root" "/abs/root" exTree
    ∧ "root/sub/deep/file.txt" ∈
        (generate_directory_tree_text "root" "/abs/root" (some exTree)).2 := by
  refine ⟨?_, ?_, by decide, by decide, by decide, by decide⟩
  · intro e he
    simp [entryLines, he]
  · intro e fn hfn
    simp only [entryLines, List.mem_cons, List.mem_map]
    exact Or.inr ⟨fn, hfn, rfl⟩

/-- Witness for `dir_depth_is_sep_count` at the entry `os.walk` yields for
`root/sub/deep` in the nested example. -/
theorem dir_depth_is_sep_count_witness :
    (entryLines ⟨"root/sub/deep", "sub/deep", "deep", ["file.txt"]⟩).head? =
        some (glyphs (countSep "sub/deep") ++ s!"├── deep{sep}")
      ∧ glyphs (countSep "sub/deep" + 1) ++ s!"├── file.txt" ∈
        entryLines ⟨"root/sub/deep", "sub/deep", "deep", ["file.txt"]⟩ :=
  ⟨dir_depth_is_sep_count.1 ⟨"root/sub/deep", "sub/deep", "deep", ["file.txt"]⟩
      (by decide),
    dir_depth_is_sep_count.2.1 ⟨"root/sub/deep", "sub/deep", "deep", ["file.txt"]⟩
      "file.txt" (by simp)⟩

/-- C3: for an existing root, the returned file list is exactly as long as
the number of file-entry lines appended to the report, and it equals the
visitation-order file sequence of the walked tree. -/
theorem found_files_invariant (sp ap : String) (t : DirTree) :
    (generate_directory_tree_text sp ap (some t)).2.length =
      ((walkAux t sp ".").map (fun e => (entryLines e).length - 1)).sum
    ∧ (generate_directory_tree_text sp ap (some t)).2 = collectFiles t sp := by
  constructor
  · simp [generate_directory_tree_text, foundFilesOf, entryFiles_length_eq]
  · simp [generate_directory_tree_text, foundFilesOf, walkAux_files]

/-- C4: for an existing root with no subdirectories and no files, the report
is exactly the header line, the `.` + separator marker line and the
"no files found" line, and the file list is empty. -/
theorem empty_root_report (sp ap n : String) :
    generate_output_lines sp ap (.node n [] []) =
      [s!"Scanning directory tree from: {ap}\n", s!".{sep}",
        "No files found or an error occurred during scanning."]
    ∧ generate_directory_tree_text sp ap (some (.node n [] [])) =
      (String.intercalate "\n"
        [s!"Scanning directory tree from: {ap}\n", s!".{sep}",
          "No files found or an error occurred during scanning."], []) := by
  constructor
  · simp [generate_output_lines, walkAux, walkList, entryLines, foundFilesOf,
      entryFiles]
  · simp [generate_directory_tree_text, generate_output_lines, walkAux,
      walkList, entryLines, foundFilesOf, entryFiles]

/-- C5: for an existing root holding exactly one file `a.txt` and no
subdirectories, the file list is the single element `root/a.txt` and the
report holds the line `Total files found: 1`. -/
theorem single_file_report (sp ap n : String) :
    (generate_directory_tree_text sp ap (some (.node n [] ["a.txt"]))).2 =
      [sp ++ sep ++ "a.txt"]
    ∧ "\nTotal files found: 1" ∈
        generate_output_lines sp ap (.node n [] ["a.txt"]) := by
  constructor
  · simp [generate_directory_tree_text, foundFilesOf, walkAux, walkList,
      entryFiles]
  · simp [generate_output_lines, foundFilesOf, walkAux, walkList, entryFiles,
      entryLines]
    exact Or.inr (Or.inr (Or.inr (Or.inr rfl)))

/-- C6: the report ends with the summary block (separator header, every
collected path one per line, the `Total files found: <n>` count line) when
the file list is non-empty, and with the single explanatory line when it is
empty. -/
theorem summary_block_structure (sp ap : String) (t : DirTree) :
    ∃ pre, generate_output_lines sp ap t =
      pre ++ (if foundFilesOf t sp = [] then
          ["No files found or an error occurred during scanning."]
        else "\n--- Summary: All Files Found (Full Paths) ---" ::
          (foundFilesOf t sp ++
            [s!"\nTotal files found: {(foundFilesOf t sp).length}"])) := by
  refine ⟨[s!"Scanning directory tree from: {ap}\n"] ++
    ((walkAux t sp ".").map entryLines).flatten, ?_⟩
  by_cases h : foundFilesOf t sp = [] <;> simp [generate_output_lines, h]

/-- C7: the report is a pure function of the observed filesystem snapshot:
two invocations on the same root against equal snapshots return byte-identical
report text and identical file lists. -/
theorem report_deterministic (sp ap : String) (fs fs2 : Option DirTree)
    (h : fs = fs2) :
    generate_directory_tree_text sp ap fs =
      generate_directory_tree_text sp ap fs2 := by
  rw [h]

/-- Witness for `report_deterministic`: two runs on the empty-root snapshot. -/
theorem report_deterministic_witness :
    generate_directory_tree_text "r" "/a/r" (some (.node "r" [] [])) =
      generate_directory_tree_text "r" "/a/r" (some (.node "r" [] [])) :=
  report_deterministic "r" "/a/r" (some (.node "r" [] []))
    (some (.node "r" [] [])) rfl

theorem starts_iff_take {p s : List Char} : Starts p s ↔ s.take p.length = p := by
  constructor
  · rintro ⟨t, rfl⟩
    exact List.take_left p t
  · intro h
    refine ⟨s.drop p.length, ?_⟩
    conv_lhs => rw [← List.take_append_drop p.length s]
    rw [h]

theorem starts_nil (s : List Char) : Starts [] s := ⟨s, rfl⟩

theorem starts_cons_iff {a c : Char} {p s : List Char} :
    Starts (a :: p) (c :: s) ↔ a = c ∧ Starts p s := by
  constructor
  · rintro ⟨t, h⟩
    injection h with h1 h2
    exact ⟨h1.symm, t, h2⟩
  · rintro ⟨rfl, t, rfl⟩
    exact ⟨t, rfl⟩

theorem within_of_starts {p s : List Char} (h : Starts p s) : Within p s := by
  obtain ⟨t, rfl⟩ := h
  exact ⟨[], t, rfl⟩

theorem within_cons {p s : List Char} (c : Char) (h : Within p s) :
    Within p (c :: s) := by
  obtain ⟨u, v, rfl⟩ := h
  exact ⟨c :: u, v, rfl⟩

theorem within_nil_iff {p : List Char} : Within p [] ↔ p = [] := by
  constructor
  · rintro ⟨u, v, h⟩
    have h' := h.symm
    simp only [List.append_eq_nil] at h'
    exact h'.1.2
  · rintro rfl
    exact ⟨[], [], rfl⟩

theorem within_cons_iff {p s : List Char} {c : Char} :
    Within p (c :: s) ↔ Starts p (c :: s) ∨ Within p s := by
  constructor
  · rintro ⟨u, v, h⟩
    cases u with
    | nil => exact Or.inl ⟨v, by simpa using h⟩
    | cons d u =>
      injection h with h1 h2
      exact Or.inr ⟨u, v, h2⟩
  · rintro (h | h)
    · exact within_of_starts h
    · exact within_cons c h

theorem starts_of_starts_append {q r x : List Char} (hle : q.length ≤ r.length)
    (h : Starts q (r ++ x)) : Starts q r := by
  have ht := starts_iff_take.mp h
  rw [List.take_append_of_le_length hle] at ht
  exact starts_iff_take.mpr ht

theorem starts_rev {p r x : List Char} (hle : r.length ≤ p.length)
    (h : Starts p (r ++ x)) : Starts r p := by
  obtain ⟨t, ht⟩ := h
  have h2 : (r ++ x).take r.length = (p ++ t).take r.length := by rw [ht]
  rw [List.take_left, List.take_append_of_le_length hle] at h2
  exact starts_iff_take.mpr h2.symm

theorem within_append_cases {p : List Char} (r x : List Char)
    (h : Within p (r ++ x)) :
    Within p r ∨ Within p x ∨ ∃ j, j < r.length ∧ Starts (r.drop j) p := by
  induction r with
  | nil => exact Or.inr (Or.inl (by simpa using h))
  | cons c r ih =>
    rw [List.cons_append, within_cons_iff] at h
    rcases h with h | h
    · rw [← List.cons_append] at h
      by_cases hl : p.length ≤ (c :: r).length
      · exact Or.inl (within_of_starts (starts_of_starts_append hl h))
      · refine Or.inr (Or.inr ⟨0, by simp, ?_⟩)
        simpa using starts_rev (Nat.le_of_not_le hl) h
    · rcases ih h with h | h | ⟨j, hj, hst⟩
      · exact Or.inl (within_cons c h)
      · exact Or.inr (Or.inl h)
      · refine Or.inr (Or.inr ⟨j + 1, by simpa using hj, by simpa using hst⟩)

theorem within_of_within_drop {p l : List Char} {n : Nat}
    (h : Within p (l.drop n)) : Within p l := by
  obtain ⟨u, v, hv⟩ := h
  refine ⟨l.take n ++ u, v, ?_⟩
  conv_lhs => rw [← List.take_append_drop n l]
  rw [hv]
  simp

theorem reSub_eq_of_not_within (pat rep : List Char) :
    ∀ s, ¬ Within pat s → reSub pat rep s = s := by
  refine reSub.induct pat rep
    (fun s => ¬ Within pat s → reSub pat rep s = s) ?_ ?_ ?_
  · intro _
    rw [reSub.eq_1]
  · intro c rest hm ih h
    exact absurd (within_of_starts hm.2) h
  · intro c rest hm ih h
    rw [reSub.eq_2, if_neg hm, ih (fun hw => h (within_cons c hw))]

theorem starts_reSub_cases (pat rep : List Char)
    (hlen : pat.length ≤ rep.length) :
    ∀ s q : List Char, q.length ≤ pat.length → Starts q (reSub pat rep s) →
      Starts q s ∨
        ∃ a b, q = a ++ b ∧ b ≠ [] ∧ Starts b rep ∧ Starts (a ++ pat) s := by
  refine reSub.induct pat rep (fun s => ∀ q : List Char,
    q.length ≤ pat.length → Starts q (reSub pat rep s) →
      Starts q s ∨
        ∃ a b, q = a ++ b ∧ b ≠ [] ∧ Starts b rep ∧ Starts (a ++ pat) s)
    ?_ ?_ ?_
  · intro q hq hs
    rw [reSub.eq_1] at hs
    obtain ⟨t, ht⟩ := hs
    obtain ⟨hq0, -⟩ := List.append_eq_nil.mp ht.symm
    subst hq0
    exact Or.inl (starts_nil [])
  · intro c rest hm ih q hq hs
    rw [reSub.eq_2, if_pos hm] at hs
    have hqr : Starts q rep := starts_of_starts_append (le_trans hq hlen) hs
    rcases eq_or_ne q [] with rfl | hne
    · exact Or.inl (starts_nil _)
    · exact Or.inr ⟨[], q, rfl, hne, hqr, by simpa using hm.2⟩
  · intro c rest hm ih q hq hs
    rw [reSub.eq_2, if_neg hm] at hs
    cases q with
    | nil => exact Or.inl (starts_nil _)
    | cons a q2 =>
      rw [starts_cons_iff] at hs
      obtain ⟨rfl, hs2⟩ := hs
      rcases ih q2 (Nat.le_of_succ_le hq) hs2 with h | ⟨x, b, hsp, hb, hbr, hxp⟩
      · exact Or.inl (starts_cons_iff.mpr ⟨rfl, h⟩)
      · refine Or.inr ⟨a :: x, b, by simp [hsp], hb, hbr, ?_⟩
        exact starts_cons_iff.mpr ⟨rfl, hxp⟩

theorem not_within_reSub (pat rep : List Char)
    (hpat : pat ≠ []) (hlen : pat.length ≤ rep.length)
    (h1 : ¬ Within pat rep)
    (hSP : ∀ j, j < rep.length → ¬ Starts (rep.drop j) pat)
    (hPS : ∀ k, k < pat.length → 0 < k → ¬ Starts (pat.drop k) rep) :
    ∀ s, ¬ Within pat (reSub pat rep s) := by
  refine reSub.induct pat rep (fun s => ¬ Within pat (reSub pat rep s))
    ?_ ?_ ?_
  · show ¬ Within pat (reSub pat rep [])
    rw [reSub.eq_1, within_nil_iff]
    exact hpat
  · intro c rest hm ih hw
    rw [reSub.eq_2, if_pos hm] at hw
    rcases within_append_cases rep _ hw with h | h | ⟨j, hj, hst⟩
    · exact h1 h
    · exact ih h
    · exact hSP j hj hst
  · intro c rest hm ih hw
    rw [reSub.eq_2, if_neg hm] at hw
    rcases within_cons_iff.mp hw with h | h
    · obtain ⟨a, p2, hp2⟩ := List.exists_cons_of_ne_nil hpat
      nth_rewrite 1 [hp2] at h
      rw [starts_cons_iff] at h
      obtain ⟨ha, h2⟩ := h
      rcases starts_reSub_cases pat rep hlen rest p2
          (by rw [hp2]; simp) h2 with hc | ⟨x, b, hsp, hb, hbr, hxp⟩
      · refine hm ⟨hpat, ?_⟩
        rw [hp2]
        exact starts_cons_iff.mpr ⟨ha, hc⟩
      · have hk : pat.drop (x.length + 1) = b := by
          rw [hp2, hsp]
          simp [List.drop_left]
        refine hPS (x.length + 1) ?_ (Nat.succ_pos _) (hk ▸ hbr)
        have hbpos : 0 < b.length := List.length_pos.mpr hb
        rw [hp2, hsp]
        simp only [List.length_cons, List.length_append]
        omega
    · exact ih h

theorem not_within_reSub_other (p p2 r2 : List Char)
    (hp : p ≠ []) (hq2 : p.length - 1 ≤ p2.length)
    (hlen : p2.length ≤ r2.length)
    (d1 : ¬ Within p r2)
    (d2 : ∀ j, j < r2.length → ¬ Starts (r2.drop j) p)
    (d3 : ∀ k, k < p.length → 0 < k → ¬ Starts (p.drop k) r2) :
    ∀ s, ¬ Within p s → ¬ Within p (reSub p2 r2 s) := by
  refine reSub.induct p2 r2
    (fun s => ¬ Within p s → ¬ Within p (reSub p2 r2 s)) ?_ ?_ ?_
  · intro _ hw
    rw [reSub.eq_1] at hw
    exact hp (within_nil_iff.mp hw)
  · intro c rest hm ih hns hw
    rw [reSub.eq_2, if_pos hm] at hw
    have hns2 : ¬ Within p (rest.drop (p2.length - 1)) := fun hd =>
      hns (within_cons c (within_of_within_drop hd))
    rcases within_append_cases r2 _ hw with h | h | ⟨j, hj, hst⟩
    · exact d1 h
    · exact ih hns2 h
    · exact d2 j hj hst
  · intro c rest hm ih hns hw
    rw [reSub.eq_2, if_neg hm] at hw
    have hnr : ¬ Within p rest := fun h => hns (within_cons c h)
    rcases within_cons_iff.mp hw with h | h
    · obtain ⟨a, p1, hp1⟩ := List.exists_cons_of_ne_nil hp
      rw [hp1, starts_cons_iff] at h
      obtain ⟨ha, h2⟩ := h
      rcases starts_reSub_cases p2 r2 hlen rest p1
          (by rw [hp1] at hq2; simpa using hq2) h2
        with hc | ⟨x, b, hsp, hb, hbr, hxp⟩
      · refine hns (within_of_starts ?_)
        rw [hp1]
        exact starts_cons_iff.mpr ⟨ha, hc⟩
      · have hk : p.drop (x.length + 1) = b := by
          rw [hp1, hsp]
          simp [List.drop_left]
        refine d3 (x.length + 1) ?_ (Nat.succ_pos _) (hk ▸ hbr)
        have hbpos : 0 < b.length := List.length_pos.mpr hb
        rw [hp1, hsp]
        simp only [List.length_cons, List.length_append]
        omega
    · exact ih hnr h

/-- C9: the full `PATTERNS` substitution is idempotent: rewriting already
rewritten text changes nothing, because neither replacement string (nor any
juxtaposition it creates) matches either pattern again. -/
theorem applyPatterns_idempotent (content : String) :
    applyPatterns (applyPatterns content) = applyPatterns content := by
  have hF1 : ¬ Within fromPat (reSub fromPat fromRep content.data) :=
    not_within_reSub fromPat fromRep (by decide) (by decide) (by decide)
      (by decide) (by decide) content.data
  have hR : ¬ Within reqPat
      (reSub reqPat reqRep (reSub fromPat fromRep content.data)) :=
    not_within_reSub reqPat reqRep (by decide) (by decide) (by decide)
      (by decide) (by decide) (reSub fromPat fromRep content.data)
  have hF2 : ¬ Within fromPat
      (reSub reqPat reqRep (reSub fromPat fromRep content.data)) :=
    not_within_reSub_other fromPat reqPat reqRep (by decide) (by decide)
      (by decide) (by decide) (by decide) (by decide)
      (reSub fromPat fromRep content.data) hF1
  simp only [applyPatterns]
  rw [reSub_eq_of_not_within fromPat fromRep _ hF2,
    reSub_eq_of_not_within reqPat reqRep _ hR]

/-- C8: the batch rewrites exactly the files whose name ends with `.js`
(pointwise: a `.js` file becomes its `update_imports` result, every other
file is untouched, the file count is preserved), and an error raised while
processing one file is caught per-file — the unguarded body returns the
error, the guarded `update_imports` returns the file unchanged — so every
other file of the batch is still processed. -/
theorem main_rewrites_js_only (files : List SrcFile) (i : Nat) :
    (update_imports_main files).length = files.length
    ∧ (update_imports_main files)[i]? = files[i]?.map
        (fun f => if f.name.endsWith ".js" then (update_imports f).1 else f)
    ∧ (∀ p n, update_imports_raw ⟨p, n, none⟩ = Except.error p)
    ∧ (∀ p n, update_imports ⟨p, n, none⟩ = (⟨p, n, none⟩, false)) := by
  refine ⟨by simp [update_imports_main], ?_, fun p n => rfl, fun p n => rfl⟩
  simp [update_imports_main]

/-- C10: a readable file is written back exactly when applying the patterns
changes its content; its stored content afterwards is the rewritten content,
and when the rewrite changes nothing the file's state is exactly as before,
with no write. -/
theorem update_imports_writes_iff (f : SrcFile) (c : String)
    (h : f.content = some c) :
    ((update_imports f).2 = true ↔ applyPatterns c ≠ c)
    ∧ (update_imports f).1.content = some (applyPatterns c)
    ∧ (applyPatterns c = c → update_imports f = (f, false)) := by
  rcases f with ⟨p, n, co⟩
  cases h
  by_cases hc : applyPatterns c = c
  · simp [update_imports, update_imports_raw, hc]
  · simp [update_imports, update_imports_raw, hc]

/-- Witness for `update_imports_writes_iff` on a readable file whose content
the patterns do not change. -/
theorem update_imports_writes_iff_witness :
    ((update_imports ⟨"src/a.js", "a.js", some "let x = 1"⟩).2 = true ↔
        applyPatterns "let x = 1" ≠ "let x = 1")
      ∧ (update_imports ⟨"src/a.js", "a.js", some "let x = 1"⟩).1.content =
        some (applyPatterns "let x = 1")
      ∧ (applyPatterns "let x = 1" = "let x = 1" →
        update_imports ⟨"src/a.js", "a.js", some "let x = 1"⟩ =
          (⟨"src/a.js", "a.js", some "let x = 1"⟩, false)) :=
  update_imports_writes_iff ⟨"src/a.js", "a.js", some "let x = 1"⟩
    "let x = 1" rfl
